import Mathlib

/-!
# genaddr: wildcard pattern matcher and search coordination

A shallow embedding of `main.go` of `grom42kem/genaddr`.

* A Go `string` is a sequence of bytes, modelled as `List Nat`.
* A Go function that may panic on an index or slice expression returns an
  `Option`: `none` is the run-time panic, `some b` is the returned value.
* Bounded `for` loops are modelled by structural recursion on the number of
  iterations that remain, which the definition computes from the loop bound.
* The result goroutine of `main` is a state machine over the records it receives.
-/

namespace Genaddr

/-- A Go string: its bytes. -/
abbrev Str := List Nat

/-- The bytes of an ASCII literal (for ASCII text the code points are the UTF-8 bytes). -/
def str (s : String) : Str := s.toList.map Char.toNat

/-- Every byte is below `utf8.RuneSelf` (0x80). -/
def isASCII (s : Str) : Prop := ∀ x ∈ s, x < 128

instance (s : Str) : Decidable (isASCII s) := by
  unfold isASCII; infer_instance

/-- Go's `s[i]`: panics when `i` is out of range. -/
def index (s : Str) (i : Nat) : Option Nat := s[i]?

/-- Go's `s[lo:hi]`: panics unless `lo ≤ hi ≤ len(s)`. -/
def slice (s : Str) (lo hi : Nat) : Option Str :=
  if lo ≤ hi ∧ hi ≤ s.length then some ((s.drop lo).take (hi - lo)) else none

/-- One byte of `strings.ToLower` on its ASCII path: `'A'..'Z'` gets `'a' - 'A'` added. -/
def lowerByte (c : Nat) : Nat := if 65 ≤ c ∧ c ≤ 90 then c + 32 else c

/-- Go's `strings.ToLower` on ASCII input (every byte below 0x80), the case the
matcher is specified for; the Unicode path taken by other input is not modelled and
bytes from 0x80 on are left as they are. -/
def ToLower (s : Str) : Str := s.map lowerByte

/-- Go's `strings.Split(s, sep)` for a one-byte separator: the pieces between the
occurrences of `sep`, one more than there are occurrences. -/
def Split (sep : Nat) : Str → List Str
  | [] => [[]]
  | c :: cs =>
    if c = sep then [] :: Split sep cs
    else match Split sep cs with
      | [] => [[c]]
      | piece :: pieces => (c :: piece) :: pieces

/-- `isDigit` of `main.go`: `c >= '0' && c <= '9'`. -/
def isDigit (c : Nat) : Bool := decide (48 ≤ c) && decide (c ≤ 57)

/-- `isHexLetter` of `main.go`: `c >= 'a' && c <= 'f'`. -/
def isHexLetter (c : Nat) : Bool := decide (97 ≤ c) && decide (c ≤ 102)

/-- The loop of `matchExactPattern`, `for i := 0; i < len(pattern); i++`, at index
`i` with `n = len(pattern) - i` iterations left. `'#'` is 35 and `'@'` is 64. -/
def matchExactLoop (s pattern : Str) : Nat → Nat → Option Bool
  | 0, _ => some true
  | n + 1, i => do
    let p ← index pattern i
    if p = 35 then
      let c ← index s i
      if !isDigit c then some false else matchExactLoop s pattern n (i + 1)
    else if p = 64 then
      let c ← index s i
      if !isHexLetter c then some false else matchExactLoop s pattern n (i + 1)
    else
      let c ← index s i
      if c ≠ p then some false else matchExactLoop s pattern n (i + 1)

/-- `matchExactPattern` of `main.go`. -/
def matchExactPattern (s pattern : Str) : Option Bool :=
  if s.length ≠ pattern.length then some false
  else matchExactLoop s pattern pattern.length 0

/-- `matchPrefix` of `main.go`. -/
def matchPrefix (s pre : Str) : Option Bool :=
  if s.length < pre.length then some false
  else do
    let head ← slice s 0 pre.length
    matchExactPattern head pre

/-- `matchSuffix` of `main.go`. -/
def matchSuffix (s suffix : Str) : Option Bool :=
  if s.length < suffix.length then some false
  else do
    let tail ← slice s (s.length - suffix.length) s.length
    matchExactPattern tail suffix

/-- The search loop for a middle part, `for j := pos; j <= len(addr)-len(part); j++`,
at offset `j` with `n` iterations left: the first `j` whose window matches, or
`none` when the loop ends with `found` still false. -/
def scanMiddle (addr part : Str) : Nat → Nat → Option (Option Nat)
  | 0, _ => some none
  | n + 1, j => do
    let window ← slice addr j (j + part.length)
    let m ← matchExactPattern window part
    if m then some (some j) else scanMiddle addr part n (j + 1)

/-- The number of values `j` with `pos ≤ j ≤ len(addr) - len(part)`, the bound being
a signed `int` that may be negative. -/
def scanCount (addr part : Str) (pos : Nat) : Nat :=
  Int.toNat ((addr.length : Int) - (part.length : Int) - (pos : Int) + 1)

/-- The loop `for i, part := range parts` of `checkAddress`: `n` is `len(parts)`,
`i` the index of the head of the remaining parts and `pos` the cursor. -/
def checkParts (addr : Str) (n : Nat) : Nat → Nat → List Str → Option Bool
  | _, _, [] => some true
  | i, pos, part :: rest =>
    if part = [] then checkParts addr n (i + 1) pos rest
    else if i = 0 then do
      let m ← matchPrefix addr part
      if !m then some false else checkParts addr n (i + 1) part.length rest
    else if i = n - 1 then do
      let tail ← slice addr pos addr.length
      matchSuffix tail part
    else do
      let r ← scanMiddle addr part (scanCount addr part pos) pos
      match r with
      | none => some false
      | some j => checkParts addr n (i + 1) (j + part.length) rest

/-- The body of `checkAddress` after the two `strings.ToLower` calls. `'*'` is 42. -/
def checkLowered (addr pattern : Str) : Option Bool :=
  let parts := Split 42 pattern
  if parts.length = 1 then matchExactPattern addr pattern
  else checkParts addr parts.length 0 0 parts

/-- `checkAddress` of `main.go`. -/
def checkAddress (addr pattern : Str) : Option Bool :=
  checkLowered (ToLower addr) (ToLower pattern)


/-- The record a worker sends,
`fmt.Sprintf("Address: %s\nPrivate Key: %s", addressHex, privateKeyHex)`; byte 10 is
the line feed. -/
def formatResult (addressHex privateKeyHex : Str) : Str :=
  str "Address: " ++ addressHex ++ 10 :: str "Private Key: " ++ privateKeyHex

/-- What becomes of a send on the unbuffered `addresses` channel, which the rest of the
program decides: the result goroutine receives it; or the result goroutine has returned
(continue mode off, after its first record) and the channel is still open, so the send
blocks with no receiver; or `main` has closed the channel, so the send panics. -/
inductive SendFate where
  | received
  | blocked
  | closed
deriving DecidableEq

/-- How the pattern loop of one iteration of `generateAddresses` ends, short of a panic:
it is left (by `break` or at the end of the list) with the records the result goroutine
received from it, or the worker is parked in the send statement and nothing was
received. -/
inductive Iteration where
  | finished (sent : List Str)
  | parked
deriving DecidableEq

/-- The statement `addresses <- result` followed by `break`; `none` is the panic of a send
on a closed channel. -/
def sendRecord (fate : SendFate) (result : Str) : Option Iteration :=
  match fate with
  | SendFate.received => some (Iteration.finished [result])
  | SendFate.blocked => some Iteration.parked
  | SendFate.closed => none

/-- The pattern loop of one iteration of `generateAddresses`, for a generated key with
address text `addressHex` and key text `privateKeyHex`, and for the fate of a send on
`addresses` in that iteration. The loop is left after a send. -/
def sendMatches (fate : SendFate) (addressHex privateKeyHex : Str) :
    List Str → Option Iteration
  | [] => some (Iteration.finished [])
  | pattern :: rest => do
    let body ← slice addressHex 2 addressHex.length
    let m ← checkAddress body pattern
    if m then sendRecord fate (formatResult addressHex privateKeyHex)
    else sendMatches fate addressHex privateKeyHex rest

/-- The records of one iteration that reached the result goroutine: none when the worker
is parked in the send or has panicked. -/
def recordsReceived : Option Iteration → List Str
  | some (Iteration.finished sent) => sent
  | some Iteration.parked => []
  | none => []

/-- The state of the result goroutine of `main`: whether it is still in its
`for addr := range addresses` loop, what it has printed, what it has written to the
output file, and how many values it has sent on `found`. -/
structure Coordinator where
  searching : Bool
  printed : List Str
  written : List Str
  found : Nat

/-- The result goroutine when it is started. -/
def Coordinator.start : Coordinator :=
  { searching := true, printed := [], written := [], found := 0 }

/-- One record arriving on `addresses`: the loop body, when the goroutine has not
returned. `hasWriter` is `writer != nil`. -/
def Coordinator.receive (continueSearch hasWriter : Bool) (st : Coordinator) (addr : Str) :
    Coordinator :=
  if !st.searching then st
  else
    let st1 := { st with printed := st.printed ++ [addr] }
    let st2 := if hasWriter then { st1 with written := st1.written ++ [addr ++ [10]] } else st1
    if !continueSearch then { st2 with found := st2.found + 1, searching := false }
    else st2

/-- The result goroutine over the sequence of records arriving on `addresses`. -/
def Coordinator.run (continueSearch hasWriter : Bool) (records : List Str) : Coordinator :=
  records.foldl (Coordinator.receive continueSearch hasWriter) Coordinator.start

/-! ## Specification-side notions -/

/-- The token rule of one pattern byte `p` for one candidate byte `c`: `'#'` asks for a
decimal digit, `'@'` for one of the letters `a`..`f`, any other byte for itself. -/
def TokenRule (p c : Nat) : Prop :=
  if p = 35 then 48 ≤ c ∧ c ≤ 57
  else if p = 64 then 97 ≤ c ∧ c ≤ 102
  else c = p

instance (p c : Nat) : Decidable (TokenRule p c) := by
  unfold TokenRule; infer_instance

/-- The string `w` token-matches the segment `seg`: equal lengths and the token rule at
every position. -/
def TokenMatch (w seg : Str) : Prop :=
  w.length = seg.length ∧
    ∀ (i : Nat) (hw : i < w.length) (hs : i < seg.length), TokenRule seg[i] w[i]

instance (w seg : Str) : Decidable (TokenMatch w seg) := by
  unfold TokenMatch; infer_instance

/-- The declarative wildcard semantics of a list of segments `s0, ..., sk`: the string
is `w0 ++ g1 ++ w1 ++ ... ++ gk ++ wk` with every `gi` arbitrary and every `wi`
token-matching `si`. -/
def WildcardMatch : List Str → Str → Prop
  | [], s => s = []
  | [seg], s => TokenMatch s seg
  | seg :: next :: rest, s =>
    ∃ w g t, s = w ++ (g ++ t) ∧ TokenMatch w seg ∧ WildcardMatch (next :: rest) t

/-- A gap followed by a wildcard match of the remaining segments. -/
def Gapped (segs : List Str) (t : Str) : Prop :=
  ∃ g u, t = g ++ u ∧ WildcardMatch segs u

/-- Two bytes that differ at most in the case of an ASCII letter. -/
def caseVariant (x y : Nat) : Prop :=
  x = y ∨ (65 ≤ x ∧ x ≤ 90 ∧ y = x + 32) ∨ (65 ≤ y ∧ y ≤ 90 ∧ x = y + 32)

instance (x y : Nat) : Decidable (caseVariant x y) := by
  unfold caseVariant; infer_instance

/-- Two strings that differ only in the case of ASCII letters. -/
def SameUpToCase (s t : Str) : Prop :=
  s.length = t.length ∧
    ∀ (i : Nat) (hs : i < s.length) (ht : i < t.length), caseVariant s[i] t[i]

instance (s t : Str) : Decidable (SameUpToCase s t) := by
  unfold SameUpToCase; infer_instance

/-- Every run of consecutive `'*'` replaced by a single `'*'`. -/
def collapseStars : Str → Str
  | [] => []
  | [c] => [c]
  | c :: d :: rest =>
    if c = 42 ∧ d = 42 then collapseStars (d :: rest) else c :: collapseStars (d :: rest)

/-- The candidate `s` starts with the segment `a`: its first `len(a)` bytes, lower-cased,
token-match the lower-cased `a`. -/
def StartsWith (s a : Str) : Prop :=
  TokenMatch ((ToLower s).take a.length) (ToLower a)

instance (s a : Str) : Decidable (StartsWith s a) := by
  unfold StartsWith; infer_instance

/-- The candidate `s` ends with the segment `b`: its last `len(b)` bytes, lower-cased,
token-match the lower-cased `b`. -/
def EndsWith (s b : Str) : Prop :=
  TokenMatch ((ToLower s).drop (s.length - b.length)) (ToLower b)

instance (s b : Str) : Decidable (EndsWith s b) := by
  unfold EndsWith; infer_instance

/-- The window of `len(a)` bytes of the candidate `s` at offset `i`, lower-cased,
token-matches the lower-cased segment `a`. -/
def OccursAt (s a : Str) (i : Nat) : Prop :=
  TokenMatch (((ToLower s).drop i).take a.length) (ToLower a)

instance (s a : Str) (i : Nat) : Decidable (OccursAt s a i) := by
  unfold OccursAt; infer_instance

/-- Token rule as a boolean, byte by byte over two strings (a proof device). -/
def tokensOk : Str → Str → Bool
  | [], [] => true
  | c :: cs, p :: ps => decide (TokenRule p c) && tokensOk cs ps
  | _, _ => false

/-- The window `addr[j : j+len(part)]` token-matches `part` (as a boolean). -/
def windowOk (addr part : Str) (j : Nat) : Bool :=
  tokensOk ((addr.drop j).take part.length) part

/-! ## The exact matcher -/

theorem tokensOk_length {s p : Str} (h : tokensOk s p = true) : s.length = p.length := by
  induction s generalizing p with
  | nil => cases p <;> simp_all [tokensOk]
  | cons c cs ih =>
    cases p with
    | nil => simp [tokensOk] at h
    | cons q qs =>
      simp only [tokensOk, Bool.and_eq_true] at h
      simp [ih h.2]

theorem tokensOk_iff (s p : Str) : tokensOk s p = true ↔ TokenMatch s p := by
  induction s generalizing p with
  | nil =>
    cases p with
    | nil => simp [tokensOk, TokenMatch]
    | cons q qs => simp [tokensOk, TokenMatch]
  | cons c cs ih =>
    cases p with
    | nil => simp [tokensOk, TokenMatch]
    | cons q qs =>
      simp only [tokensOk, Bool.and_eq_true, decide_eq_true_eq, ih, TokenMatch,
        List.length_cons, Nat.add_right_cancel_iff]
      constructor
      · rintro ⟨h0, hl, hr⟩
        refine ⟨hl, ?_⟩
        intro i hw hs
        cases i with
        | zero => simpa using h0
        | succ k =>
          simp only [List.getElem_cons_succ]
          exact hr k (by omega) (by omega)
      · rintro ⟨hl, hr⟩
        refine ⟨?_, hl, ?_⟩
        · simpa using hr 0 (by omega) (by omega)
        · intro i hw hs
          simpa using hr (i + 1) (by omega) (by omega)

theorem matchExactLoop_eq (s p : Str) (hlen : s.length = p.length) :
    ∀ (n i : Nat), i + n = p.length →
      matchExactLoop s p n i = some (tokensOk (s.drop i) (p.drop i)) := by
  intro n
  induction n with
  | zero =>
    intro i hi
    have h1 : p.length ≤ i := by omega
    have h2 : s.length ≤ i := by omega
    simp [matchExactLoop, List.drop_eq_nil_of_le h1, List.drop_eq_nil_of_le h2, tokensOk]
  | succ n ih =>
    intro i hi
    have hp : i < p.length := by omega
    have hs : i < s.length := by omega
    have ih1 := ih (i + 1) (by omega)
    rw [List.drop_eq_getElem_cons hp, List.drop_eq_getElem_cons hs]
    simp only [matchExactLoop, index, List.getElem?_eq_getElem hp, List.getElem?_eq_getElem hs,
      Option.bind_eq_bind, Option.some_bind, ih1, tokensOk, TokenRule, isDigit, isHexLetter]
    by_cases h35 : p[i] = 35
    · by_cases hd : 48 ≤ s[i] ∧ s[i] ≤ 57
      · simp [h35, hd]
      · simp only [h35, if_true]
        have : (decide (48 ≤ s[i]) && decide (s[i] ≤ 57)) = false := by
          simpa using hd
        simp [this, hd]
    · by_cases h64 : p[i] = 64
      · by_cases hd : 97 ≤ s[i] ∧ s[i] ≤ 102
        · simp [h64, hd]
        · have : (decide (97 ≤ s[i]) && decide (s[i] ≤ 102)) = false := by
            simpa using hd
          simp [h64, this, hd]
      · by_cases he : s[i] = p[i]
        · simp [h35, h64, he]
        · simp [h35, h64, he]

theorem matchExactPattern_eq (s p : Str) : matchExactPattern s p = some (tokensOk s p) := by
  unfold matchExactPattern
  by_cases hlen : s.length = p.length
  · simp only [hlen, ne_eq, not_true_eq_false, if_false]
    simpa using matchExactLoop_eq s p hlen p.length 0 (by omega)
  · simp only [ne_eq, hlen, not_false_eq_true, if_true]
    cases hb : tokensOk s p with
    | false => rfl
    | true => exact absurd (tokensOk_length hb) hlen

theorem slice_eq {s : Str} {lo hi : Nat} (h1 : lo ≤ hi) (h2 : hi ≤ s.length) :
    slice s lo hi = some ((s.drop lo).take (hi - lo)) := by
  simp [slice, h1, h2]

theorem matchPrefix_eq (s p : Str) :
    matchPrefix s p = some (decide (p.length ≤ s.length) && tokensOk (s.take p.length) p) := by
  unfold matchPrefix
  by_cases h : s.length < p.length
  · have : ¬ p.length ≤ s.length := by omega
    simp [h, this]
  · have h' : p.length ≤ s.length := by omega
    simp [h, h', slice_eq (Nat.zero_le _) h', matchExactPattern_eq]

theorem matchSuffix_eq (s p : Str) :
    matchSuffix s p =
      some (decide (p.length ≤ s.length) && tokensOk (s.drop (s.length - p.length)) p) := by
  unfold matchSuffix
  by_cases h : s.length < p.length
  · have : ¬ p.length ≤ s.length := by omega
    simp [h, this]
  · have h' : p.length ≤ s.length := by omega
    have hsl := slice_eq (s := s) (Nat.sub_le s.length p.length) (Nat.le_refl _)
    have htake : List.take (s.length - (s.length - p.length)) (List.drop (s.length - p.length) s)
        = List.drop (s.length - p.length) s := by
      apply List.take_of_length_le
      simp
    simp [h, h', hsl, htake, matchExactPattern_eq]

/-! ## The middle scan -/

theorem scanMiddle_spec (addr part : Str) :
    ∀ (n j : Nat), (n = 0 ∨ j + n + part.length ≤ addr.length + 1) →
      ∃ r, scanMiddle addr part n j = some r ∧
        match r with
        | none => ∀ k, j ≤ k → k < j + n → windowOk addr part k = false
        | some k => j ≤ k ∧ k < j + n ∧ windowOk addr part k = true ∧
            ∀ k', j ≤ k' → k' < k → windowOk addr part k' = false := by
  intro n
  induction n with
  | zero =>
    intro j _
    refine ⟨none, rfl, ?_⟩
    intro k h1 h2
    omega
  | succ n ih =>
    intro j hj
    have hb : j + part.length ≤ addr.length := by omega
    have hsl : slice addr j (j + part.length) = some ((addr.drop j).take part.length) := by
      rw [slice_eq (Nat.le_add_right _ _) hb]
      simp
    simp only [scanMiddle, hsl, matchExactPattern_eq, Option.bind_eq_bind, Option.some_bind]
    change ∃ r, (if windowOk addr part j = true then some (some j)
      else scanMiddle addr part n (j + 1)) = some r ∧ _
    cases hw : windowOk addr part j with
    | true =>
      refine ⟨some j, by simp, ?_⟩
      refine ⟨Nat.le_refl _, by omega, hw, ?_⟩
      intro k' h1 h2
      omega
    | false =>
      obtain ⟨r, hr, hspec⟩ := ih (j + 1) (by omega)
      refine ⟨r, by simpa using hr, ?_⟩
      cases r with
      | none =>
        intro k h1 h2
        by_cases hk : k = j
        · subst hk; exact hw
        · exact hspec k (by omega) (by omega)
      | some k =>
        obtain ⟨h1, h2, h3, h4⟩ := hspec
        refine ⟨by omega, by omega, h3, ?_⟩
        intro k' h5 h6
        by_cases hk : k' = j
        · subst hk; exact hw
        · exact h4 k' (by omega) h6

theorem scanCount_bound (addr part : Str) (pos : Nat) :
    (scanCount addr part pos = 0 ∧ addr.length < pos + part.length) ∨
      pos + scanCount addr part pos + part.length = addr.length + 1 := by
  unfold scanCount
  omega

/-! ## Splitting on the star -/

theorem Split_ne_nil (sep : Nat) (s : Str) : Split sep s ≠ [] := by
  cases s with
  | nil => simp [Split]
  | cons c cs =>
    simp only [Split]
    split
    · simp
    · split <;> simp

theorem Split_of_not_mem (sep : Nat) (s : Str) (h : sep ∉ s) : Split sep s = [s] := by
  induction s with
  | nil => rfl
  | cons c cs ih =>
    have hc : c ≠ sep := fun e => h (by simp [e])
    have hcs : sep ∉ cs := fun e => h (by simp [e])
    simp [Split, hc, ih hcs]

theorem Split_append (sep : Nat) (a b : Str) (h : sep ∉ a) :
    Split sep (a ++ sep :: b) = a :: Split sep b := by
  induction a with
  | nil => simp [Split]
  | cons c cs ih =>
    have hc : c ≠ sep := fun e => h (by simp [e])
    have hcs : sep ∉ cs := fun e => h (by simp [e])
    simp [Split, hc, ih hcs]

theorem Split_length_one (sep : Nat) (s : Str) (h : (Split sep s).length = 1) :
    Split sep s = [s] := by
  induction s with
  | nil => rfl
  | cons c cs ih =>
    by_cases hc : c = sep
    · simp only [Split, hc, if_true, List.length_cons] at h
      have := Split_ne_nil sep cs
      cases hs : Split sep cs with
      | nil => exact absurd hs this
      | cons x xs => simp [hs] at h
    · cases hs : Split sep cs with
      | nil => exact absurd hs (Split_ne_nil sep cs)
      | cons x xs =>
        simp only [Split, hc, if_false, hs, List.length_cons] at h ⊢
        have hxs : xs = [] := by
          cases xs with
          | nil => rfl
          | cons y ys => simp at h
        subst hxs
        have := ih (by simp [hs])
        rw [hs] at this
        simp only [List.cons.injEq, and_true] at this
        simp [this]

/-! ## Declarative semantics: unfolding lemmas -/

theorem TokenMatch_nil_right (w : Str) : TokenMatch w [] ↔ w = [] := by
  constructor
  · intro h
    exact List.length_eq_zero.mp h.1
  · intro h
    subst h
    exact ⟨rfl, fun i hw _ => absurd hw (Nat.not_lt_zero i)⟩

theorem WildcardMatch_cons (seg : Str) (rest : List Str) (s : Str) (hrest : rest ≠ []) :
    WildcardMatch (seg :: rest) s ↔
      seg.length ≤ s.length ∧ TokenMatch (s.take seg.length) seg ∧
        Gapped rest (s.drop seg.length) := by
  cases rest with
  | nil => exact absurd rfl hrest
  | cons next rest =>
    simp only [WildcardMatch, Gapped]
    constructor
    · rintro ⟨w, g, t, rfl, hw, ht⟩
      have hl : w.length = seg.length := hw.1
      refine ⟨by simp [hl], ?_, g, t, ?_, ht⟩
      · rw [← hl, List.take_left]; exact hw
      · rw [← hl, List.drop_left]
    · rintro ⟨_, hw, g, t, hgt, ht⟩
      refine ⟨s.take seg.length, g, t, ?_, hw, ht⟩
      rw [← hgt, List.take_append_drop]

theorem Gapped_prepend (segs : List Str) (x t : Str) (h : Gapped segs t) :
    Gapped segs (x ++ t) := by
  obtain ⟨g, u, rfl, hu⟩ := h
  exact ⟨x ++ g, u, by simp, hu⟩

theorem Gapped_drop_mono (segs : List Str) (t : Str) (a b : Nat) (hab : b ≤ a)
    (h : Gapped segs (t.drop a)) : Gapped segs (t.drop b) := by
  have : t.drop b = (t.drop b).take (a - b) ++ t.drop a := by
    have h1 : t.drop a = (t.drop b).drop (a - b) := by
      rw [List.drop_drop]; congr 1; omega
    rw [h1, List.take_append_drop]
  rw [this]
  exact Gapped_prepend _ _ _ h

theorem Gapped_single (part t : Str) :
    Gapped [part] t ↔
      part.length ≤ t.length ∧ TokenMatch (t.drop (t.length - part.length)) part := by
  simp only [Gapped, WildcardMatch]
  constructor
  · rintro ⟨g, u, rfl, hu⟩
    have hl : u.length = part.length := hu.1
    refine ⟨by simp [hl], ?_⟩
    have : (g ++ u).length - part.length = g.length := by simp [hl]
    rw [this, List.drop_left]
    exact hu
  · rintro ⟨_, hu⟩
    exact ⟨t.take (t.length - part.length), t.drop (t.length - part.length),
      (List.take_append_drop _ _).symm, hu⟩

theorem Gapped_cons (part : Str) (rest : List Str) (t : Str) (hrest : rest ≠ []) :
    Gapped (part :: rest) t ↔
      ∃ j, j + part.length ≤ t.length ∧ TokenMatch ((t.drop j).take part.length) part ∧
        Gapped rest (t.drop (j + part.length)) := by
  constructor
  · rintro ⟨g, u, rfl, hu⟩
    rw [WildcardMatch_cons _ _ _ hrest] at hu
    obtain ⟨h1, h2, h3⟩ := hu
    refine ⟨g.length, by simp; omega, ?_, ?_⟩
    · rw [List.drop_left]; exact h2
    · have : List.drop (g.length + part.length) (g ++ u) = List.drop part.length u := by
        rw [← List.drop_drop, List.drop_left]
      rw [this]; exact h3
  · rintro ⟨j, h1, h2, h3⟩
    refine ⟨t.take j, t.drop j, (List.take_append_drop _ _).symm, ?_⟩
    rw [WildcardMatch_cons _ _ _ hrest]
    refine ⟨by simp; omega, h2, ?_⟩
    rw [List.drop_drop]
    exact h3

theorem Gapped_nil_cons (rest : List Str) (t : Str) (hrest : rest ≠ []) :
    Gapped ([] :: rest) t ↔ Gapped rest t := by
  rw [Gapped_cons _ _ _ hrest]
  constructor
  · rintro ⟨j, _, _, h3⟩
    have := Gapped_drop_mono rest t (j + 0) 0 (Nat.zero_le _) (by simpa using h3)
    simpa using this
  · intro h
    exact ⟨0, by simp, by simp [TokenMatch_nil_right], by simpa using h⟩

/-! ## The greedy loop against the declarative semantics -/

theorem windowOk_iff (addr part : Str) (pos j : Nat) :
    windowOk addr part (pos + j) = true ↔
      TokenMatch (((addr.drop pos).drop j).take part.length) part := by
  unfold windowOk
  rw [tokensOk_iff, List.drop_drop]

theorem checkParts_spec (addr : Str) (n : Nat) :
    ∀ (rest : List Str) (i pos : Nat), rest ≠ [] → 1 ≤ i → i + rest.length = n →
      pos ≤ addr.length →
      ∃ b, checkParts addr n i pos rest = some b ∧
        (b = true ↔ Gapped rest (addr.drop pos)) := by
  intro rest
  induction rest with
  | nil => intro i pos h; exact absurd rfl h
  | cons part r ih =>
    intro i pos _ hi hn hpos
    simp only [List.length_cons] at hn
    by_cases hp : part = []
    · subst hp
      simp only [checkParts, if_true]
      cases r with
      | nil =>
        refine ⟨true, rfl, ?_⟩
        simp only [Gapped_single, TokenMatch_nil_right, List.length_nil, Nat.zero_le, true_and,
          Nat.sub_zero, true_iff]
        exact List.drop_eq_nil_of_le (Nat.le_refl _)
      | cons next r' =>
        obtain ⟨b, hb, hspec⟩ := ih (i + 1) pos (by simp) (by omega) (by omega) hpos
        refine ⟨b, hb, ?_⟩
        rw [Gapped_nil_cons _ _ (by simp)]
        exact hspec
    · have hi0 : i ≠ 0 := by omega
      by_cases hlast : i = n - 1
      · have hr : r = [] := by
          apply List.length_eq_zero.mp
          omega
        subst hr
        subst hlast
        have hsl : slice addr pos addr.length = some (addr.drop pos) := by
          rw [slice_eq hpos (Nat.le_refl _)]
          congr 1
          apply List.take_of_length_le
          simp
        simp only [checkParts, hp, hi0, ↓reduceIte, hsl, Option.bind_eq_bind,
          Option.some_bind, matchSuffix_eq]
        refine ⟨_, rfl, ?_⟩
        rw [Gapped_single, Bool.and_eq_true, decide_eq_true_eq, tokensOk_iff]
      · have hr : r ≠ [] := by
          intro e
          subst e
          simp at hn
          omega
        have hcnt := scanCount_bound addr part pos
        obtain ⟨res, hres, hspec⟩ := scanMiddle_spec addr part (scanCount addr part pos) pos
          (by omega)
        simp only [checkParts, hp, if_false, hi0, hlast, hres, Option.bind_eq_bind,
          Option.some_bind]
        cases res with
        | none =>
          refine ⟨false, rfl, ?_⟩
          simp only [Bool.false_eq_true, false_iff]
          rw [Gapped_cons _ _ _ hr]
          rintro ⟨j, h1, h2, _⟩
          simp only [List.length_drop] at h1
          have hk := hspec (pos + j) (by omega) (by omega)
          rw [← windowOk_iff] at h2
          rw [hk] at h2
          exact absurd h2 (by simp)
        | some k =>
          obtain ⟨h1, h2, h3, h4⟩ := hspec
          obtain ⟨b, hb, hbspec⟩ := ih (i + 1) (k + part.length) hr (by omega) (by omega)
            (by omega)
          refine ⟨b, hb, ?_⟩
          rw [hbspec, Gapped_cons _ _ _ hr]
          constructor
          · intro hg
            refine ⟨k - pos, by simp only [List.length_drop]; omega, ?_, ?_⟩
            · rw [← windowOk_iff]
              have : pos + (k - pos) = k := by omega
              rw [this]; exact h3
            · rw [List.drop_drop]
              have : pos + (k - pos + part.length) = k + part.length := by omega
              rw [this]; exact hg
          · rintro ⟨j, hj1, hj2, hj3⟩
            rw [← windowOk_iff] at hj2
            have hle : k ≤ pos + j := by
              by_contra hlt
              have := h4 (pos + j) (by omega) (by omega)
              rw [this] at hj2
              exact absurd hj2 (by simp)
            rw [List.drop_drop] at hj3
            exact Gapped_drop_mono r addr _ _ (by omega) hj3

theorem checkLowered_spec (addr pattern : Str) :
    ∃ b, checkLowered addr pattern = some b ∧
      (b = true ↔ WildcardMatch (Split 42 pattern) addr) := by
  unfold checkLowered
  by_cases h1 : (Split 42 pattern).length = 1
  · simp only [h1, if_true]
    rw [Split_length_one 42 pattern h1, matchExactPattern_eq]
    exact ⟨_, rfl, by simp [WildcardMatch, tokensOk_iff]⟩
  · simp only [h1, if_false]
    cases hs : Split 42 pattern with
    | nil => exact absurd hs (Split_ne_nil 42 pattern)
    | cons s0 rest =>
      have hrest : rest ≠ [] := by
        intro e
        rw [hs, e] at h1
        simp at h1
      rw [WildcardMatch_cons _ _ _ hrest]
      by_cases hp : s0 = []
      · subst hp
        simp only [checkParts, if_true]
        obtain ⟨b, hb, hspec⟩ := checkParts_spec addr (rest.length + 1) rest 1 0 hrest
          (Nat.le_refl _) (by omega) (Nat.zero_le _)
        refine ⟨b, by simpa using hb, ?_⟩
        rw [hspec]
        simp [TokenMatch_nil_right]
      · simp only [checkParts, hp, if_false, if_true, matchPrefix_eq, Option.bind_eq_bind,
          Option.some_bind]
        by_cases hm : s0.length ≤ addr.length ∧ TokenMatch (addr.take s0.length) s0
        · have hm' : (decide (s0.length ≤ addr.length) && tokensOk (addr.take s0.length) s0)
              = true := by
            simpa [tokensOk_iff] using hm
          obtain ⟨b, hb, hspec⟩ := checkParts_spec addr (rest.length + 1) rest 1 s0.length
            hrest (Nat.le_refl _) (by omega) hm.1
          refine ⟨b, by simpa [hm'] using hb, ?_⟩
          rw [hspec]
          simp [hm.1, hm.2]
        · have hm' : (decide (s0.length ≤ addr.length) && tokensOk (addr.take s0.length) s0)
              = false := by
            rw [Bool.eq_false_iff]
            intro e
            apply hm
            simpa [tokensOk_iff] using e
          refine ⟨false, by simp [hm'], ?_⟩
          simp only [Bool.false_eq_true, false_iff]
          rintro ⟨h1, h2, _⟩
          exact hm ⟨h1, h2⟩

theorem checkLowered_true_iff (addr pattern : Str) :
    checkLowered addr pattern = some true ↔ WildcardMatch (Split 42 pattern) addr := by
  obtain ⟨b, hb, hspec⟩ := checkLowered_spec addr pattern
  rw [hb, ← hspec]
  simp

theorem checkLowered_false_iff (addr pattern : Str) :
    checkLowered addr pattern = some false ↔ ¬ WildcardMatch (Split 42 pattern) addr := by
  obtain ⟨b, hb, hspec⟩ := checkLowered_spec addr pattern
  rw [hb, ← hspec]
  cases b <;> simp

/-! ## Lower-casing -/

theorem ToLower_length (s : Str) : (ToLower s).length = s.length := by
  simp [ToLower]

theorem ToLower_getElem (s : Str) (i : Nat) (h : i < s.length) (h' : i < (ToLower s).length) :
    (ToLower s)[i] = lowerByte s[i] := by
  simp [ToLower]

theorem lowerByte_eq_star (x : Nat) : lowerByte x = 42 ↔ x = 42 := by
  unfold lowerByte
  split <;> omega

theorem star_not_mem_ToLower (s : Str) (h : 42 ∉ s) : 42 ∉ ToLower s := by
  intro hm
  simp only [ToLower, List.mem_map] at hm
  obtain ⟨x, hx, hx'⟩ := hm
  rw [lowerByte_eq_star] at hx'
  exact h (hx' ▸ hx)

theorem ToLower_append_star (a b : Str) :
    ToLower (a ++ 42 :: b) = ToLower a ++ 42 :: ToLower b := by
  simp [ToLower, lowerByte]

theorem lowerByte_idem (x : Nat) : lowerByte (lowerByte x) = lowerByte x := by
  unfold lowerByte
  split_ifs <;> omega

theorem ToLower_idem (s : Str) : ToLower (ToLower s) = ToLower s := by
  simp [ToLower, lowerByte_idem]

theorem lowerByte_caseVariant {x y : Nat} (h : caseVariant x y) : lowerByte x = lowerByte y := by
  unfold caseVariant at h
  unfold lowerByte
  split_ifs <;> omega

theorem ToLower_SameUpToCase {s t : Str} (h : SameUpToCase s t) : ToLower s = ToLower t := by
  apply List.ext_getElem
  · simp [ToLower_length, h.1]
  · intro i h1 h2
    rw [ToLower_length] at h1 h2
    rw [ToLower_getElem s i h1, ToLower_getElem t i h2]
    exact lowerByte_caseVariant (h.2 i h1 h2)

theorem TokenMatch_ToLower_iff (s p : Str) :
    TokenMatch (ToLower s) (ToLower p) ↔
      s.length = p.length ∧
        ∀ (i : Nat) (hc : i < s.length) (hp : i < p.length),
          TokenRule (lowerByte p[i]) (lowerByte s[i]) := by
  unfold TokenMatch
  simp only [ToLower_length]
  constructor
  · rintro ⟨hl, h⟩
    refine ⟨hl, fun i hc hp => ?_⟩
    have := h i hc hp
    rwa [ToLower_getElem s i hc, ToLower_getElem p i hp] at this
  · rintro ⟨hl, h⟩
    refine ⟨hl, fun i hc hp => ?_⟩
    rw [ToLower_getElem s i hc, ToLower_getElem p i hp]
    exact h i hc hp

/-- The two-segment case of the declarative semantics, in terms of offsets. -/
theorem WildcardMatch_pair (a b s : Str) :
    WildcardMatch [a, b] s ↔
      a.length + b.length ≤ s.length ∧ TokenMatch (s.take a.length) a ∧
        TokenMatch (s.drop (s.length - b.length)) b := by
  rw [WildcardMatch_cons _ _ _ (by simp), Gapped_single]
  simp only [List.length_drop]
  constructor
  · rintro ⟨h1, h2, h3, h4⟩
    refine ⟨by omega, h2, ?_⟩
    rw [List.drop_drop] at h4
    have : a.length + (s.length - a.length - b.length) = s.length - b.length := by omega
    rwa [this] at h4
  · rintro ⟨h1, h2, h3⟩
    refine ⟨by omega, h2, by omega, ?_⟩
    rw [List.drop_drop]
    have : a.length + (s.length - a.length - b.length) = s.length - b.length := by omega
    rwa [this]

theorem checkAddress_single_star (c a b : Str) (ha : 42 ∉ a) (hb : 42 ∉ b) :
    checkAddress c (a ++ 42 :: b) = some true ↔
      a.length + b.length ≤ c.length ∧
        TokenMatch ((ToLower c).take a.length) (ToLower a) ∧
        TokenMatch ((ToLower c).drop (c.length - b.length)) (ToLower b) := by
  unfold checkAddress
  rw [checkLowered_true_iff, ToLower_append_star,
    Split_append 42 _ _ (star_not_mem_ToLower a ha),
    Split_of_not_mem 42 _ (star_not_mem_ToLower b hb), WildcardMatch_pair]
  simp only [ToLower_length]

/-! ## Collapsing runs of stars -/

theorem WildcardMatch_congr_tail (h : Str) (tl tl' : List Str) (hnil : tl = [] ↔ tl' = [])
    (hg : ∀ t, Gapped tl t ↔ Gapped tl' t) (s : Str) :
    WildcardMatch (h :: tl) s ↔ WildcardMatch (h :: tl') s := by
  by_cases ht : tl = []
  · have ht' := hnil.mp ht
    subst ht
    subst ht'
    exact Iff.rfl
  · have ht' : tl' ≠ [] := fun e => ht (hnil.mpr e)
    rw [WildcardMatch_cons _ _ _ ht, WildcardMatch_cons _ _ _ ht', hg]

theorem Gapped_congr_tail (h : Str) (tl tl' : List Str) (hnil : tl = [] ↔ tl' = [])
    (hg : ∀ t, Gapped tl t ↔ Gapped tl' t) (t : Str) :
    Gapped (h :: tl) t ↔ Gapped (h :: tl') t := by
  unfold Gapped
  constructor
  · rintro ⟨g, u, hgu, hu⟩
    exact ⟨g, u, hgu, (WildcardMatch_congr_tail h tl tl' hnil hg u).mp hu⟩
  · rintro ⟨g, u, hgu, hu⟩
    exact ⟨g, u, hgu, (WildcardMatch_congr_tail h tl tl' hnil hg u).mpr hu⟩

theorem Split_star_cons (q : Str) : Split 42 (42 :: q) = [] :: Split 42 q := by
  simp [Split]

theorem Split_cons_of_ne (sep x : Nat) (q h : Str) (tl : List Str) (hx : x ≠ sep)
    (hq : Split sep q = h :: tl) : Split sep (x :: q) = (x :: h) :: tl := by
  rw [Split]
  simp only [hx, if_false]
  rw [hq]

theorem Split_collapseStars (q : Str) :
    ∃ h tl tl', Split 42 q = h :: tl ∧ Split 42 (collapseStars q) = h :: tl' ∧
      (tl = [] ↔ tl' = []) ∧ ∀ t, Gapped tl t ↔ Gapped tl' t := by
  induction q using collapseStars.induct with
  | case1 => exact ⟨[], [], [], rfl, rfl, Iff.rfl, fun _ => Iff.rfl⟩
  | case2 x =>
    obtain ⟨h, tl, hs⟩ := List.exists_cons_of_ne_nil (Split_ne_nil 42 [x])
    exact ⟨h, tl, tl, hs, by simpa [collapseStars] using hs, Iff.rfl, fun _ => Iff.rfl⟩
  | case3 x d rest hxd ih =>
    obtain ⟨hx, hd⟩ := hxd
    subst hx
    subst hd
    obtain ⟨h, tl, tl', h1, h2, h3, h4⟩ := ih
    rw [Split_star_cons] at h1
    simp only [List.cons.injEq] at h1
    obtain ⟨hh, htl⟩ := h1
    subst hh
    have hne : tl ≠ [] := htl ▸ Split_ne_nil 42 rest
    have hne' : tl' ≠ [] := fun e => hne (h3.mpr e)
    refine ⟨[], [] :: tl, tl', ?_, ?_, ?_, ?_⟩
    · rw [Split_star_cons, Split_star_cons, htl]
    · simpa [collapseStars] using h2
    · simp [hne']
    · intro t
      rw [Gapped_nil_cons _ _ hne]
      exact h4 t
  | case4 x d rest hxd ih =>
    obtain ⟨h, tl, tl', h1, h2, h3, h4⟩ := ih
    have hc : collapseStars (x :: d :: rest) = x :: collapseStars (d :: rest) := by
      simp [collapseStars, hxd]
    rw [hc]
    by_cases hx : x = 42
    · subst hx
      refine ⟨[], h :: tl, h :: tl', ?_, ?_, by simp, ?_⟩
      · rw [Split_star_cons, h1]
      · rw [Split_star_cons, h2]
      · exact Gapped_congr_tail h tl tl' h3 h4
    · refine ⟨x :: h, tl, tl', ?_, ?_, h3, h4⟩
      · exact Split_cons_of_ne 42 x _ h tl hx h1
      · exact Split_cons_of_ne 42 x _ h tl' hx h2

theorem WildcardMatch_collapseStars (q s : Str) :
    WildcardMatch (Split 42 (collapseStars q)) s ↔ WildcardMatch (Split 42 q) s := by
  obtain ⟨h, tl, tl', h1, h2, h3, h4⟩ := Split_collapseStars q
  rw [h1, h2]
  exact (WildcardMatch_congr_tail h tl tl' h3 h4 s).symm

theorem ToLower_collapseStars (q : Str) :
    ToLower (collapseStars q) = collapseStars (ToLower q) := by
  induction q using collapseStars.induct with
  | case1 => rfl
  | case2 x => rfl
  | case3 x d rest hxd ih =>
    obtain ⟨hx, hd⟩ := hxd
    subst hx
    subst hd
    have e : ToLower (42 :: 42 :: rest) = 42 :: 42 :: ToLower rest := by
      simp [ToLower, lowerByte]
    have e' : ToLower (42 :: rest) = 42 :: ToLower rest := by
      simp [ToLower, lowerByte]
    rw [e]
    simp only [collapseStars, and_self, if_true]
    rw [ih, e']
  | case4 x d rest hxd ih =>
    have e : ToLower (x :: d :: rest) = lowerByte x :: lowerByte d :: ToLower rest := by
      simp [ToLower]
    have e' : ToLower (d :: rest) = lowerByte d :: ToLower rest := by
      simp [ToLower]
    have hxd' : ¬ (lowerByte x = 42 ∧ lowerByte d = 42) := by
      rw [lowerByte_eq_star, lowerByte_eq_star]
      exact hxd
    rw [e]
    simp only [collapseStars, hxd, hxd', if_false]
    rw [← e', ← ih]
    simp [ToLower]

theorem checkAddress_collapseStars (addr p : Str) :
    checkAddress addr (collapseStars p) = checkAddress addr p := by
  unfold checkAddress
  obtain ⟨b, hb, hspec⟩ := checkLowered_spec (ToLower addr) (ToLower p)
  obtain ⟨b', hb', hspec'⟩ := checkLowered_spec (ToLower addr) (ToLower (collapseStars p))
  rw [hb, hb']
  rw [ToLower_collapseStars, WildcardMatch_collapseStars, ← hspec] at hspec'
  cases b <;> cases b' <;> simp_all

/-! ## The claims -/

theorem str_star : str "*" = [42] := by decide

theorem checkAddress_nostar (s p : Str) (hstar : 42 ∉ p) :
    checkAddress s p = some (decide (TokenMatch (ToLower s) (ToLower p))) := by
  unfold checkAddress
  obtain ⟨b, hb, hspec⟩ := checkLowered_spec (ToLower s) (ToLower p)
  rw [Split_of_not_mem 42 _ (star_not_mem_ToLower p hstar)] at hspec
  simp only [WildcardMatch] at hspec
  rw [hb]
  cases b <;> simp_all

/-- C1. For an ASCII candidate `s` and an ASCII pattern `p` without `'*'`, `checkAddress`
returns true exactly when the lengths are equal and at every position the lower-cased
candidate byte satisfies the token rule of the lower-cased pattern byte; with different
lengths it returns false; the empty pattern matches only the empty candidate. -/
theorem checkAddress_exact_rule (s p : Str) (_hs : isASCII s) (_hp : isASCII p)
    (hstar : 42 ∉ p) :
    (checkAddress s p = some true ↔
      s.length = p.length ∧
        ∀ (i : Nat) (h1 : i < s.length) (h2 : i < p.length),
          TokenRule (lowerByte p[i]) (lowerByte s[i])) ∧
    (s.length ≠ p.length → checkAddress s p = some false) ∧
    (p = [] → (checkAddress s p = some true ↔ s = [])) := by
  have key := checkAddress_nostar s p hstar
  refine ⟨?_, ?_, ?_⟩
  · rw [key, ← TokenMatch_ToLower_iff]
    simp
  · intro hne
    rw [key]
    have : ¬ TokenMatch (ToLower s) (ToLower p) := by
      rw [TokenMatch_ToLower_iff]
      exact fun h => hne h.1
    simp [this]
  · intro hp
    subst hp
    rw [key]
    have : ToLower ([] : Str) = [] := rfl
    rw [this]
    simp only [Option.some.injEq, decide_eq_true_eq, TokenMatch_nil_right]
    constructor
    · intro h
      exact List.length_eq_zero.mp (by rw [← ToLower_length, h]; rfl)
    · intro h
      subst h
      rfl

/-- Witness for C1: the rule at candidate `"123a"` and pattern `"###@"`, which match, and
the evaluation of `"1a2b"` against `"###@"`, which does not. -/
theorem checkAddress_exact_rule_witness :
    isASCII (str "123a") ∧ isASCII (str "###@") ∧ 42 ∉ str "###@" ∧
      checkAddress (str "123a") (str "###@") = some true ∧
      checkAddress (str "1a2b") (str "###@") = some false :=
  ⟨by decide, by decide, by decide,
    (checkAddress_exact_rule (str "123a") (str "###@") (by decide) (by decide)
      (by decide)).1.mpr (by decide),
    by decide⟩

/-- C2. For an ASCII candidate `s` and a pattern `a ++ "*" ++ b` with `a` and `b` free of
`'*'` (either may be empty), `checkAddress` returns true exactly when
`len(s) ≥ len(a) + len(b)`, the first `len(a)` bytes of `s` token-match `a` and the last
`len(b)` bytes of `s` token-match `b`. -/
theorem checkAddress_single_star_rule (s a b : Str) (_hs : isASCII s) (_ha : isASCII a)
    (_hb : isASCII b) (hastar : 42 ∉ a) (hbstar : 42 ∉ b) :
    checkAddress s (a ++ str "*" ++ b) = some true ↔
      a.length + b.length ≤ s.length ∧ StartsWith s a ∧ EndsWith s b := by
  rw [str_star, List.append_assoc, List.singleton_append]
  exact checkAddress_single_star s a b hastar hbstar

/-- Witness for C2: the prefix pattern `"123*"` and the suffix pattern `"*123"`. -/
theorem checkAddress_single_star_rule_witness :
    checkAddress (str "123abc") (str "123" ++ str "*" ++ str "") = some true ∧
      checkAddress (str "124abc") (str "123*") = some false ∧
      checkAddress (str "abc123") (str "" ++ str "*" ++ str "123") = some true ∧
      checkAddress (str "abc124") (str "*123") = some false :=
  ⟨(checkAddress_single_star_rule (str "123abc") (str "123") (str "") (by decide) (by decide)
      (by decide) (by decide) (by decide)).mpr (by decide),
    by decide,
    (checkAddress_single_star_rule (str "abc123") (str "") (str "123") (by decide) (by decide)
      (by decide) (by decide) (by decide)).mpr (by decide),
    by decide⟩

theorem Gapped_empty_last (t : Str) : Gapped [[]] t := by
  rw [Gapped_single]
  refine ⟨Nat.zero_le _, ?_⟩
  rw [TokenMatch_nil_right]
  exact List.drop_eq_nil_of_le (by simp)

theorem WildcardMatch_two_middle (a b s : Str) :
    WildcardMatch [[], a, b, []] s ↔
      ∃ i j, i + a.length ≤ j ∧ j + b.length ≤ s.length ∧
        TokenMatch ((s.drop i).take a.length) a ∧ TokenMatch ((s.drop j).take b.length) b := by
  rw [WildcardMatch_cons _ _ _ (by simp), Gapped_cons _ _ _ (by simp)]
  simp only [List.length_nil, Nat.zero_le, List.take_zero, TokenMatch_nil_right, true_and,
    List.drop_zero]
  constructor
  · rintro ⟨i, h1, h2, h3⟩
    rw [Gapped_cons _ _ _ (by simp)] at h3
    obtain ⟨k, h4, h5, _⟩ := h3
    simp only [List.length_drop] at h4
    rw [List.drop_drop] at h5
    exact ⟨i, i + a.length + k, by omega, by omega, h2, h5⟩
  · rintro ⟨i, j, h1, h2, h3, h4⟩
    refine ⟨i, by omega, h3, ?_⟩
    rw [Gapped_cons _ _ _ (by simp)]
    refine ⟨j - (i + a.length), by simp only [List.length_drop]; omega, ?_, Gapped_empty_last _⟩
    rw [List.drop_drop]
    have : i + a.length + (j - (i + a.length)) = j := by omega
    rw [this]
    exact h4

/-- C3. For an ASCII candidate `s` and the pattern `"*" ++ a ++ "*" ++ b ++ "*"` with `a`
and `b` non-empty and free of `'*'`, `checkAddress` returns true exactly when there are
offsets `i` and `j` with `i + len(a) ≤ j` and `j + len(b) ≤ len(s)` such that `a` occurs
at `i` and `b` occurs at `j`: the leftmost-first scan misses no such pair. -/
theorem checkAddress_ordered_middle (s a b : Str) (_hs : isASCII s) (_ha : isASCII a)
    (_hb : isASCII b) (_hane : a ≠ []) (_hbne : b ≠ []) (hastar : 42 ∉ a) (hbstar : 42 ∉ b) :
    checkAddress s (str "*" ++ a ++ str "*" ++ b ++ str "*") = some true ↔
      ∃ i j, i + a.length ≤ j ∧ j + b.length ≤ s.length ∧ OccursAt s a i ∧ OccursAt s b j := by
  have hpat : str "*" ++ a ++ str "*" ++ b ++ str "*" = [] ++ 42 :: (a ++ 42 :: (b ++ 42 :: [])) := by
    simp [str_star]
  have hl : ToLower ([] ++ 42 :: (a ++ 42 :: (b ++ 42 :: []))) =
      [] ++ 42 :: (ToLower a ++ 42 :: (ToLower b ++ 42 :: [])) := by
    simp [ToLower, lowerByte]
  unfold checkAddress
  rw [checkLowered_true_iff, hpat, hl, Split_append 42 _ _ (by simp),
    Split_append 42 _ _ (star_not_mem_ToLower a hastar),
    Split_append 42 _ _ (star_not_mem_ToLower b hbstar)]
  have : Split 42 [] = [[]] := rfl
  rw [this, WildcardMatch_two_middle]
  simp only [ToLower_length, OccursAt]

/-- Witness for C3: `"123"` then `"456"` inside `"xx123yy456zz"`, and the reversed order
inside `"xx456yy123zz"`. -/
theorem checkAddress_ordered_middle_witness :
    checkAddress (str "xx123yy456zz") (str "*" ++ str "123" ++ str "*" ++ str "456" ++ str "*")
        = some true ∧
      checkAddress (str "xx456yy123zz") (str "*123*456*") = some false :=
  ⟨(checkAddress_ordered_middle (str "xx123yy456zz") (str "123") (str "456") (by decide)
      (by decide) (by decide) (by decide) (by decide) (by decide) (by decide)).mpr
      ⟨2, 7, by decide, by decide, by decide, by decide⟩,
    by decide⟩

/-- C4. For ASCII candidates and patterns, `checkAddress` gives the same result on inputs
that differ only in the case of ASCII letters; in particular on the lower-cased inputs;
and an upper-case hex letter `'A'..'F'` in the candidate satisfies `'@'`. -/
theorem checkAddress_case_insensitive (s p s' p' : Str) (_hs : isASCII s) (_hp : isASCII p)
    (_hs' : isASCII s') (_hp' : isASCII p') (hss : SameUpToCase s s')
    (hpp : SameUpToCase p p') :
    checkAddress s p = checkAddress s' p' ∧
      checkAddress s p = checkAddress (ToLower s) (ToLower p) ∧
      ∀ x, 65 ≤ x → x ≤ 70 → checkAddress [x] (str "@") = some true := by
  refine ⟨?_, ?_, ?_⟩
  · unfold checkAddress
    rw [ToLower_SameUpToCase hss, ToLower_SameUpToCase hpp]
  · unfold checkAddress
    rw [ToLower_idem, ToLower_idem]
  · intro x h1 h2
    interval_cases x <;> decide

/-- Witness for C4: `"DEAD"` against `"dead"` and against `"DeAd"`. -/
theorem checkAddress_case_insensitive_witness :
    checkAddress (str "DEAD") (str "dead") = checkAddress (str "dead") (str "DeAd") ∧
      checkAddress (str "DEAD") (str "dead") = some true :=
  ⟨(checkAddress_case_insensitive (str "DEAD") (str "dead") (str "dead") (str "DeAd")
      (by decide) (by decide) (by decide) (by decide) (by decide) (by decide)).1,
    by decide⟩

theorem checkAddress_returns (s p : Str) : ∃ b, checkAddress s p = some b := by
  obtain ⟨b, hb, _⟩ := checkLowered_spec (ToLower s) (ToLower p)
  exact ⟨b, hb⟩

theorem slice_from (s : Str) (pos : Nat) (h : pos ≤ s.length) :
    slice s pos s.length = some (s.drop pos) := by
  rw [slice_eq h (Nat.le_refl _)]
  congr 1
  apply List.take_of_length_le
  simp

theorem sendMatches_eq (fate : SendFate) (addressHex privateKeyHex : Str)
    (patterns : List Str) (hlen : 2 ≤ addressHex.length) :
    sendMatches fate addressHex privateKeyHex patterns =
      if ∃ p ∈ patterns, checkAddress (addressHex.drop 2) p = some true
        then sendRecord fate (formatResult addressHex privateKeyHex)
        else some (Iteration.finished []) := by
  induction patterns with
  | nil => simp [sendMatches]
  | cons q qs ih =>
    obtain ⟨b, hb⟩ := checkAddress_returns (addressHex.drop 2) q
    simp only [sendMatches, slice_from addressHex 2 hlen, Option.bind_eq_bind,
      Option.some_bind, hb, ih]
    cases b with
    | true => simp [hb]
    | false => simp [hb]

/-- C5, as amended. In the pattern loop of one iteration of `generateAddresses`, for every
address text (of at least the two bytes of its `0x` prefix), key text and pattern list:
when `checkAddress` is true on the address body for no pattern of the list, nothing is
sent, whatever the state of the channel; when it is true for at least one pattern the
send statement is reached once, and then the result goroutine receives exactly one record
if it is receiving, while the worker stays blocked in the send, and no record is
received, if the result goroutine has returned. -/
theorem sendMatches_alternation (fate : SendFate) (addressHex privateKeyHex : Str)
    (patterns : List Str) (hlen : 2 ≤ addressHex.length) :
    ((¬ ∃ p ∈ patterns, checkAddress (addressHex.drop 2) p = some true) →
      sendMatches fate addressHex privateKeyHex patterns = some (Iteration.finished [])) ∧
    ((∃ p ∈ patterns, checkAddress (addressHex.drop 2) p = some true) →
      sendMatches SendFate.received addressHex privateKeyHex patterns =
          some (Iteration.finished [formatResult addressHex privateKeyHex]) ∧
        sendMatches SendFate.blocked addressHex privateKeyHex patterns =
          some Iteration.parked) ∧
    (recordsReceived (sendMatches SendFate.received addressHex privateKeyHex patterns) ≠ [] ↔
      ∃ p ∈ patterns, checkAddress (addressHex.drop 2) p = some true) := by
  refine ⟨?_, ?_, ?_⟩
  · intro h
    rw [sendMatches_eq fate _ _ _ hlen, if_neg h]
  · intro h
    rw [sendMatches_eq SendFate.received _ _ _ hlen, sendMatches_eq SendFate.blocked _ _ _ hlen,
      if_pos h, if_pos h]
    exact ⟨rfl, rfl⟩
  · rw [sendMatches_eq _ _ _ _ hlen]
    by_cases h : ∃ p ∈ patterns, checkAddress (addressHex.drop 2) p = some true
    · rw [if_pos h]
      simp [sendRecord, recordsReceived, h]
    · rw [if_neg h]
      simp [recordsReceived, h]

/-- Witness for C5 as amended: the body `"12ab"` matches the second and the third pattern
of a list, and one record is received; with the result goroutine gone the worker is
parked; against a list it does not match nothing is sent, even on a closed channel. -/
theorem sendMatches_alternation_witness :
    sendMatches SendFate.received (str "0x12ab") (str "0x01") [str "zz*", str "*ab", str "12*"]
        = some (Iteration.finished [formatResult (str "0x12ab") (str "0x01")]) ∧
      sendMatches SendFate.blocked (str "0x12ab") (str "0x01") [str "zz*", str "*ab", str "12*"]
        = some Iteration.parked ∧
      sendMatches SendFate.closed (str "0x12ab") (str "0x01") [str "zz*", str "*cd"]
        = some (Iteration.finished []) :=
  have h := (sendMatches_alternation SendFate.received (str "0x12ab") (str "0x01")
    [str "zz*", str "*ab", str "12*"] (by decide)).2.1 ⟨str "*ab", by decide, by decide⟩
  ⟨h.1, h.2,
    (sendMatches_alternation SendFate.closed (str "0x12ab") (str "0x01")
      [str "zz*", str "*cd"] (by decide)).1 (by decide)⟩

/-- Counterexample to C5 as stated: the pattern `"*ab"` matches the body `"12ab"`, and
with the result goroutine already returned the worker blocks in the send and no record
reaches the coordinator. -/
theorem blocked_send_delivers_nothing :
    ¬ (recordsReceived (sendMatches SendFate.blocked (str "0x12ab") (str "0x01") [str "*ab"])
          ≠ [] ↔
        ∃ p ∈ [str "*ab"], checkAddress ((str "0x12ab").drop 2) p = some true) := by
  decide

theorem Coordinator.foldl_stopped (continueSearch hasWriter : Bool) (records : List Str)
    (st : Coordinator) (h : st.searching = false) :
    records.foldl (Coordinator.receive continueSearch hasWriter) st = st := by
  induction records with
  | nil => rfl
  | cons r rs ih =>
    have : Coordinator.receive continueSearch hasWriter st r = st := by
      simp [Coordinator.receive, h]
    rw [List.foldl_cons, this, ih]

theorem Coordinator.foldl_continue (hasWriter : Bool) (records : List Str) (st : Coordinator)
    (h : st.searching = true) :
    (records.foldl (Coordinator.receive true hasWriter) st).printed = st.printed ++ records ∧
      (records.foldl (Coordinator.receive true hasWriter) st).found = st.found ∧
      (records.foldl (Coordinator.receive true hasWriter) st).searching = true := by
  induction records generalizing st with
  | nil => simp [h]
  | cons r rs ih =>
    have hstep : (Coordinator.receive true hasWriter st r).searching = true ∧
        (Coordinator.receive true hasWriter st r).printed = st.printed ++ [r] ∧
        (Coordinator.receive true hasWriter st r).found = st.found := by
      cases hasWriter <;> simp [Coordinator.receive, h]
    obtain ⟨h1, h2, h3⟩ := ih _ hstep.1
    rw [List.foldl_cons]
    refine ⟨?_, ?_, h3⟩
    · rw [h1, hstep.2.1]; simp
    · rw [h2, hstep.2.2]

/-- C6. The result goroutine over the records arriving on `addresses`: with continue mode
off it prints exactly the first record, sends once on `found` and has returned, whatever
arrives later; with continue mode on it prints every record in arrival order, never sends
on `found` and keeps receiving. -/
theorem coordinator_first_match_wins (hasWriter : Bool) (r : Str) (later records : List Str) :
    ((Coordinator.run false hasWriter (r :: later)).printed = [r] ∧
      (Coordinator.run false hasWriter (r :: later)).found = 1 ∧
      (Coordinator.run false hasWriter (r :: later)).searching = false ∧
      Coordinator.run false hasWriter (r :: later) = Coordinator.run false hasWriter [r]) ∧
    ((Coordinator.run true hasWriter records).printed = records ∧
      (Coordinator.run true hasWriter records).found = 0 ∧
      (Coordinator.run true hasWriter records).searching = true) := by
  constructor
  · have hfirst : (Coordinator.receive false hasWriter Coordinator.start r).searching = false := by
      cases hasWriter <;> simp [Coordinator.receive, Coordinator.start]
    have hrun : Coordinator.run false hasWriter (r :: later) =
        Coordinator.receive false hasWriter Coordinator.start r := by
      unfold Coordinator.run
      rw [List.foldl_cons, Coordinator.foldl_stopped _ _ _ _ hfirst]
    have hone : Coordinator.run false hasWriter [r] =
        Coordinator.receive false hasWriter Coordinator.start r := rfl
    rw [hrun, hone]
    cases hasWriter <;> simp [Coordinator.receive, Coordinator.start]
  · have := Coordinator.foldl_continue hasWriter records Coordinator.start rfl
    simpa [Coordinator.run, Coordinator.start] using this

/-- C7, as amended. For an ASCII candidate `s` and a pattern `a ++ "*" ++ b` with `a` and
`b` non-empty and free of `'*'`, `checkAddress` returns true exactly when `s` starts with
`a`, ends with `b` and is long enough for the two not to overlap,
`len(s) ≥ len(a) + len(b)`. -/
theorem checkAddress_starts_and_ends (s a b : Str) (_hs : isASCII s) (_ha : isASCII a)
    (_hb : isASCII b) (_hane : a ≠ []) (_hbne : b ≠ []) (hastar : 42 ∉ a) (hbstar : 42 ∉ b) :
    checkAddress s (a ++ str "*" ++ b) = some true ↔
      StartsWith s a ∧ EndsWith s b ∧ a.length + b.length ≤ s.length := by
  rw [str_star, List.append_assoc, List.singleton_append,
    checkAddress_single_star s a b hastar hbstar]
  constructor
  · rintro ⟨h1, h2, h3⟩
    exact ⟨h2, h3, h1⟩
  · rintro ⟨h1, h2, h3⟩
    exact ⟨h3, h1, h2⟩

/-- Witness for C7 as amended: the help text's pattern `"123*321"` on `"123321"`. -/
theorem checkAddress_starts_and_ends_witness :
    checkAddress (str "123321") (str "123" ++ str "*" ++ str "321") = some true :=
  (checkAddress_starts_and_ends (str "123321") (str "123") (str "321") (by decide) (by decide)
    (by decide) (by decide) (by decide) (by decide) (by decide)).mpr (by decide)

/-- Counterexample to C7 as stated: `"12321"` starts with `"123"` and ends with `"321"`,
and `checkAddress` returns false on the pattern `"123*321"`. -/
theorem overlap_refutes_starts_and_ends :
    ¬ (checkAddress (str "12321") (str "123" ++ str "*" ++ str "321") = some true ↔
        StartsWith (str "12321") (str "123") ∧ EndsWith (str "12321") (str "321")) := by
  decide

/-- C8, as amended. For the pattern `"*"` both segments are empty and skipped, and
`checkAddress` returns true for every candidate. -/
theorem checkAddress_lone_star (s : Str) : checkAddress s (str "*") = some true := by
  unfold checkAddress
  rw [checkLowered_true_iff]
  have : Split 42 (ToLower (str "*")) = [[], []] := by decide
  rw [this, WildcardMatch_pair]
  simp [TokenMatch_nil_right]

/-- Counterexample to C8 as stated: the candidate `"a"` is not empty and `checkAddress`
returns true on the pattern `"*"`. -/
theorem lone_star_matches_nonempty :
    ¬ (checkAddress (str "a") (str "*") = some true ↔ str "a" = []) := by
  decide

/-- C9. For an ASCII candidate `s` and an ASCII pattern `p` whose lower-cased text splits
on `'*'` into at least two segments, the greedy `checkAddress` returns true exactly when
the lower-cased candidate is `w0 ++ g1 ++ w1 ++ ... ++ gk ++ wk` with arbitrary gaps `gi`
and every `wi` token-matching the segment `si`; and collapsing the runs of `'*'` of `p`
into single stars does not change the result. -/
theorem checkAddress_greedy_eq_declarative (s p : Str) (_hs : isASCII s) (_hp : isASCII p)
    (_hk : 2 ≤ (Split 42 (ToLower p)).length) :
    (checkAddress s p = some true ↔ WildcardMatch (Split 42 (ToLower p)) (ToLower s)) ∧
      checkAddress s (collapseStars p) = checkAddress s p :=
  ⟨checkLowered_true_iff (ToLower s) (ToLower p), checkAddress_collapseStars s p⟩

/-- Witness for C9: the pattern `"de**a#*f"`, with a run of two stars, on `"DEADA5BEEF"`. -/
theorem checkAddress_greedy_eq_declarative_witness :
    checkAddress (str "DEADA5BEEF") (str "de*a#*f") = some true ∧
      collapseStars (str "de**a#*f") = str "de*a#*f" ∧
      WildcardMatch (Split 42 (ToLower (str "de**a#*f"))) (ToLower (str "DEADA5BEEF")) :=
  have h := checkAddress_greedy_eq_declarative (str "DEADA5BEEF") (str "de**a#*f") (by decide)
    (by decide) (by decide)
  have hc : collapseStars (str "de**a#*f") = str "de*a#*f" := by decide
  ⟨hc ▸ h.2.trans (by decide), hc, h.1.mp (by decide)⟩

/-- C10. `checkAddress` and its helpers never panic: for all strings every index and
slice expression is in bounds, so each of `matchExactPattern`, `matchPrefix`,
`matchSuffix`, the body of `checkAddress` after lower-casing and `checkAddress` itself
returns a boolean; and at any reachable state of the loop over the parts (cursor
`pos ≤ len(addr)`, and `pos = 0` at the first part) a non-empty part longer than the
remaining tail makes the function return false. -/
theorem checkAddress_total (addr pattern : Str) :
    (∃ b, matchExactPattern addr pattern = some b) ∧
    (∃ b, matchPrefix addr pattern = some b) ∧
    (∃ b, matchSuffix addr pattern = some b) ∧
    (∃ b, checkLowered addr pattern = some b) ∧
    (∃ b, checkAddress addr pattern = some b) ∧
    (∀ (n i pos : Nat) (part : Str) (rest : List Str), part ≠ [] → (i = 0 → pos = 0) →
      pos ≤ addr.length → addr.length - pos < part.length →
      checkParts addr n i pos (part :: rest) = some false) := by
  refine ⟨⟨_, matchExactPattern_eq addr pattern⟩, ⟨_, matchPrefix_eq addr pattern⟩,
    ⟨_, matchSuffix_eq addr pattern⟩, ?_, checkAddress_returns addr pattern, ?_⟩
  · obtain ⟨b, hb, _⟩ := checkLowered_spec addr pattern
    exact ⟨b, hb⟩
  · intro n i pos part rest hp hi hpos hlong
    by_cases hi0 : i = 0
    · have hpos0 := hi hi0
      subst hpos0
      have hlt : ¬ part.length ≤ addr.length := by omega
      simp [checkParts, hp, hi0, matchPrefix_eq, hlt]
    · by_cases hlast : i = n - 1
      · subst hlast
        have hlt : ¬ part.length ≤ addr.length - pos := by omega
        simp [checkParts, hp, hi0, slice_from addr pos hpos, matchSuffix_eq, hlt]
      · have hcnt : scanCount addr part pos = 0 := by
          unfold scanCount
          omega
        simp [checkParts, hp, hi0, hlast, hcnt, scanMiddle]

/-- Witness for C10: at cursor 1 of `"ab"` the middle part `"cde"` is longer than the
remaining tail, and the loop returns false. -/
theorem checkAddress_total_witness :
    checkParts (str "ab") 3 1 1 [str "cde", str "f"] = some false ∧
      checkAddress (str "ab") (str "a*cde*f") = some false :=
  ⟨(checkAddress_total (str "ab") (str "a*cde*f")).2.2.2.2.2 3 1 1 (str "cde") [str "f"]
      (by decide) (by decide) (by decide) (by decide),
    by decide⟩

end Genaddr
